import Mathlib

/-!
Verification development for the `erofs-rs` EROFS reader.

Shallow embedding of the parts of the crate the properties below concern:

* `src/erofs/src/file.rs` — the sequential `File` reader (`File::read`,
  `File::size`, `File::new`); embedded faithfully from the source.
* `src/erofs/src/backend/slice.rs` and `src/erofs/src/backend/mmap.rs` —
  the two `Image` backends (`get`, `len`) and the default `get_cursor`
  method of the `Image` trait in `src/erofs/src/backend/mod.rs`; embedded
  faithfully from the source.
* `EroFS::get_inode_block`, `Inode::data_size`, `EroFS::block_size` and the
  inode decoder live in `filesystem.rs` / `types.rs`, which are not part of
  the available sources; they are modelled from the specification
  (sections 3, 4.2 and 4.4), as noted on each definition.

Bytes are modelled as `Nat` (each < 256 in real images; none of the
properties below depends on the bound).  Machine integers (`usize`) are
modelled as `Nat`; overflow does not occur in the ranges exercised here.
-/

/-- Error taxonomy of the specification (section 7), restricted to the
variants the modelled components can emit. -/
inductive FsError where
  | outOfBounds
  | invalidNodeId
  | truncated
deriving DecidableEq, Repr

/-- Logical inode as produced by the inode decoder (spec section 3): for the
file-reading properties only the logical byte stream matters.  `content` is
the file's full logical byte sequence (holes already materialised as zero
bytes by the Data Locator), so `data_size` is its length. -/
structure Inode where
  content : List Nat
deriving DecidableEq, Repr

/-- Modelled from the spec: `Inode::data_size` (types.rs, not under src/):
the logical byte length of the file, authoritative for read length. -/
def Inode.data_size (i : Inode) : Nat := i.content.length

/-- Filesystem handle: for the reader properties only the cached
superblock's block size matters.  The spec (section 3) fixes the block size
to a power of two (`block_size_shift`). -/
structure EroFS where
  blockSizeShift : Nat
deriving DecidableEq, Repr

/-- Modelled from the spec: `EroFS::block_size` (filesystem.rs, not under
src/): the power-of-two block size from the cached superblock. -/
def EroFS.block_size (fs : EroFS) : Nat := 2 ^ fs.blockSizeShift

/-- Modelled from the spec: `EroFS::get_inode_block` (the Data Locator,
filesystem.rs, not under src/), per spec section 4.4: fails with
`OutOfBounds` iff `logical_offset >= data_size`; otherwise returns the
extent holding the offset — the bytes from `off` to the end of the
containing block, clamped so the length never exceeds
`data_size - logical_offset`.  The three layouts differ only in where the
extent's bytes physically live; over the logical content they all yield
this extent. -/
def EroFS.get_inode_block (fs : EroFS) (i : Inode) (off : Nat) :
    Except FsError (List Nat) :=
  if i.data_size ≤ off then
    .error .outOfBounds
  else
    .ok ((i.content.drop off).take
      (min (fs.block_size - off % fs.block_size) (i.data_size - off)))

/-- Embedding of `File` (file.rs, lines 40-46): inode, filesystem handle,
logical cursor, and the internal extent buffer. -/
structure File where
  inode : Inode
  erofs : EroFS
  offset : Nat
  buf : Option (List Nat)
deriving DecidableEq, Repr

/-- Embedding of `File::new` (file.rs, lines 49-56). -/
def File.new (i : Inode) (fs : EroFS) : File :=
  { inode := i, erofs := fs, offset := 0, buf := none }

/-- Embedding of `File::size` (file.rs, lines 59-61). -/
def File.size (f : File) : Nat := f.inode.data_size

/-- Embedding of `<File as Read>::read` (file.rs, lines 64-97).  The
caller's buffer is represented by its length `bufLen`; the returned list is
the bytes written into `buf[..n]`, so `n` is the list's length.  Rust's
`saturating_sub` is `Nat` subtraction.  The slice indexings
`data[offset..offset + n]` and `block[offset..offset + n]` are modelled by
`drop`/`take`; their Rust in-bounds conditions are captured separately by
`File.readSafe`. -/
def File.read (f : File) (bufLen : Nat) : Except String (File × List Nat) :=
  if f.inode.data_size ≤ f.offset then
    .ok (f, [])
  else
    match f.buf with
    | some data =>
      let off := f.offset % f.erofs.block_size
      let n := min bufLen (data.length - off)
      .ok ({ f with offset := f.offset + n }, (data.drop off).take n)
    | none =>
      let block_size := f.erofs.block_size
      let cur_offset := f.offset
      match f.erofs.get_inode_block f.inode cur_offset with
      | .error _ => .error "read block failed"
      | .ok block =>
        if block.length ≤ bufLen then
          .ok ({ f with offset := f.offset + block.length }, block)
        else
          let off := cur_offset % block_size
          let n := min bufLen (block.length - off)
          .ok ({ f with buf := some block, offset := f.offset + n },
            (block.drop off).take n)

/-- Embedding of Rust's `<[u8]>::get(start..end)` slice primitive, used by
both backends (`self.0.get(start..end)`): returns the subslice when
`start <= end` and `end <= len`, otherwise `None`.  This is the only
fallible access either backend performs. -/
def sliceGet (l : List Nat) (start stop : Nat) : Option (List Nat) :=
  if start ≤ stop ∧ stop ≤ l.length then
    some ((l.drop start).take (stop - start))
  else
    none

/-- Range bound, mirroring `core::ops::Bound<&usize>` as consumed by the
backends' `get`. -/
inductive RBound where
  | included (n : Nat)
  | excluded (n : Nat)
  | unbounded
deriving DecidableEq, Repr

/-- Requested byte range, mirroring a `RangeBounds<usize>` value by its two
bounds. -/
structure RangeB where
  lo : RBound
  hi : RBound
deriving DecidableEq, Repr

/-- Start-index computation shared verbatim by `SliceImage::get`
(slice.rs, lines 49-53) and `MmapImage::get` (mmap.rs, lines 42-46). -/
def RangeB.startIndex (r : RangeB) : Nat :=
  match r.lo with
  | .included s => s
  | .excluded s => s + 1
  | .unbounded => 0

/-- End-index computation shared verbatim by `SliceImage::get`
(slice.rs, lines 55-59) and `MmapImage::get` (mmap.rs, lines 48-52);
`len` is the backing image's length (`self.0.len()`). -/
def RangeB.stopIndex (r : RangeB) (len : Nat) : Nat :=
  match r.hi with
  | .included e => e + 1
  | .excluded e => e
  | .unbounded => len

/-- Embedding of `SliceImage` (slice.rs, line 29): a borrowed byte slice. -/
structure SliceImage where
  data : List Nat
deriving DecidableEq, Repr

/-- Embedding of `<SliceImage as Image>::get` (slice.rs, lines 48-62). -/
def SliceImage.get (img : SliceImage) (r : RangeB) : Option (List Nat) :=
  sliceGet img.data r.startIndex (r.stopIndex img.data.length)

/-- Embedding of `<SliceImage as Image>::len` (slice.rs, lines 64-66). -/
def SliceImage.len (img : SliceImage) : Nat := img.data.length

/-- Embedding of `MmapImage` (mmap.rs, line 38): the mapped file's bytes. -/
structure MmapImage where
  data : List Nat
deriving DecidableEq, Repr

/-- Embedding of `<MmapImage as Image>::get` (mmap.rs, lines 41-54);
textually the same algorithm as `SliceImage::get` over the mapped bytes. -/
def MmapImage.get (img : MmapImage) (r : RangeB) : Option (List Nat) :=
  sliceGet img.data r.startIndex (r.stopIndex img.data.length)

/-- Embedding of `<MmapImage as Image>::len` (mmap.rs, lines 56-58). -/
def MmapImage.len (img : MmapImage) : Nat := img.data.length

/-- Embedding of `binrw::io::Cursor` as used by `Image::get_cursor`: a
slice plus a position, created at position 0 by `Cursor::new`. -/
structure Cursor where
  inner : List Nat
  pos : Nat
deriving DecidableEq, Repr

/-- Embedding of `Cursor::new`: wraps the slice at position 0. -/
def Cursor.new (l : List Nat) : Cursor := { inner := l, pos := 0 }

/-- Embedding of the `Image` trait's default `get_cursor` (mod.rs, lines
91-93): `self.get(offset..).map(Cursor::new)`, here instantiated at the
`SliceImage` backend (`offset..` is `Included(offset)` to `Unbounded`). -/
def SliceImage.get_cursor (img : SliceImage) (offset : Nat) : Option Cursor :=
  (img.get { lo := .included offset, hi := .unbounded }).map Cursor.new

/-- Superblock fields relevant to inode decoding (spec section 3). -/
structure Superblock where
  block_size_shift : Nat
  meta_block_addr : Nat
  inode_count : Nat
  root_node_id : Nat
deriving DecidableEq, Repr

/-- Little-endian interpretation of a byte list, as used for the multi-byte
integers of the on-disk format (spec section 6). -/
def leNat (bytes : List Nat) : Nat :=
  bytes.foldr (fun b acc => b + 256 * acc) 0

/-- Logical inode record produced by the inode decoder (spec sections 3 and
4.2): node id, the compact/extended tag, the decoded `data_size`, and the
raw slot bytes the remaining fields decode from. -/
structure DecodedInode where
  nid : Nat
  extended : Bool
  data_size : Nat
  raw : List Nat
deriving DecidableEq, Repr

/-- Modelled from the spec: the Inode Decoder (`decode(nid)`, spec section
4.2; not under src/).  Computes the inode's byte address in the metadata
area from `nid` (spec section 3, addressing in compact 32-byte slot units),
rejects node ids at or beyond the declared `inode_count`, reads the fixed
header to discover the compact/extended tag (a tag bit in the first header
word), then re-reads with the corresponding slot size; a byte range falling
at or beyond the image length is rejected rather than read.  Pure function
of the cached superblock, the image bytes and `nid`. -/
def decode_inode (sb : Superblock) (img : List Nat) (nid : Nat) :
    Except FsError DecodedInode :=
  let bs := 2 ^ sb.block_size_shift
  let base := sb.meta_block_addr * bs + nid * 32
  if sb.inode_count ≤ nid then
    .error .invalidNodeId
  else
    match sliceGet img base (base + 32) with
    | none => .error .invalidNodeId
    | some header =>
      let extended : Bool := header.headD 0 % 2 == 1
      let slot := if extended then 64 else 32
      match sliceGet img base (base + slot) with
      | none => .error .truncated
      | some raw =>
        .ok { nid := nid, extended := extended,
              data_size := leNat ((raw.drop 8).take 8), raw := raw }

/-- Call `File.read` once per entry of `chunks` (each entry a caller-buffer
size) and concatenate the bytes produced: the byte stream a caller obtains
from a given chunking of buffer sizes. -/
def File.readChunks (f : File) : List Nat → List Nat
  | [] => []
  | b :: rest =>
    match f.read b with
    | .error _ => []
    | .ok (f2, out) => out ++ f2.readChunks rest

/-- In-bounds conditions for the Rust slice indexings inside `File::read`
(file.rs, lines 73, 86, 92), stated along the code's own branch structure:

* line 73, `buf[..n].copy_from_slice(&data[offset..offset + n])`: since
  `n = min(buf.len(), data.len().saturating_sub(offset))`, the indexing is
  in range exactly when `offset <= data.len()` (then `offset + n <= len`,
  and `n <= buf.len()` holds by construction);
* line 86, `buf[..n].copy_from_slice(block)`: in range by the branch
  condition `buf.len() >= block.len()`;
* line 92, `buf[..n].copy_from_slice(&block[offset..offset + n])`: in
  range exactly when `offset <= block.len()`, as for line 73. -/
def File.readSafe (f : File) (bufLen : Nat) : Prop :=
  if f.inode.data_size ≤ f.offset then True
  else
    match f.buf with
    | some data => f.offset % f.erofs.block_size ≤ data.length
    | none =>
      match f.erofs.get_inode_block f.inode f.offset with
      | .error _ => True
      | .ok block =>
        if block.length ≤ bufLen then True
        else f.offset % f.erofs.block_size ≤ block.length

/-- Invariant of the `File` states reachable from `File.new` by `read`
calls: with no buffered extent the cursor is block-aligned (or the stream
is exhausted); with a buffered extent, the buffer holds exactly the extent
located at some block-aligned `cur` before the cursor, and — when that
extent is the file's final, partial one — the cursor has not moved past
`data_size`. -/
def File.bufInv (f : File) : Prop :=
  match f.buf with
  | none =>
    f.offset % f.erofs.block_size = 0 ∨ f.inode.data_size ≤ f.offset
  | some data => ∃ cur,
      cur % f.erofs.block_size = 0 ∧
      cur < f.inode.data_size ∧
      data = (f.inode.content.drop cur).take
        (min f.erofs.block_size (f.inode.data_size - cur)) ∧
      cur ≤ f.offset ∧
      (f.inode.data_size - cur < f.erofs.block_size →
        f.offset ≤ f.inode.data_size)

lemma EroFS.block_size_pos (fs : EroFS) : 0 < fs.block_size :=
  Nat.pow_pos (by norm_num)

lemma mod_eq_sub_of_aligned {bs cur x : Nat} (hc : cur % bs = 0)
    (h1 : cur ≤ x) (h2 : x < cur + bs) : x % bs = x - cur := by
  have hr : x - cur < bs := by omega
  calc x % bs = (cur + (x - cur)) % bs := by rw [Nat.add_sub_cancel' h1]
    _ = (x - cur) % bs := by rw [Nat.add_mod, hc]; simp
    _ = x - cur := Nat.mod_eq_of_lt hr

lemma EroFS.get_inode_block_eq_ok {fs : EroFS} {i : Inode} {off : Nat}
    (h : off < i.data_size) :
    fs.get_inode_block i off =
      .ok ((i.content.drop off).take
        (min (fs.block_size - off % fs.block_size) (i.data_size - off))) := by
  simp [EroFS.get_inode_block, Nat.not_le.mpr h]

lemma EroFS.get_inode_block_length {fs : EroFS} {i : Inode} {off : Nat}
    {block : List Nat} (h : fs.get_inode_block i off = .ok block) :
    block.length = min (fs.block_size - off % fs.block_size)
      (i.data_size - off) := by
  by_cases hlt : off < i.data_size
  · rw [EroFS.get_inode_block_eq_ok hlt] at h
    cases h
    simp [Inode.data_size, List.length_take, List.length_drop]
  · simp [EroFS.get_inode_block, Nat.not_lt.mp hlt] at h

lemma EroFS.get_inode_block_length_pos {fs : EroFS} {i : Inode} {off : Nat}
    {block : List Nat} (h : fs.get_inode_block i off = .ok block)
    (hlt : off < i.data_size) : 0 < block.length := by
  rw [EroFS.get_inode_block_length h]
  have h1 : off % fs.block_size < fs.block_size :=
    Nat.mod_lt _ fs.block_size_pos
  omega

lemma File.read_eof {f : File} (bufLen : Nat)
    (h : f.inode.data_size ≤ f.offset) : f.read bufLen = .ok (f, []) := by
  simp [File.read, h]

lemma File.read_buffered {f : File} {data : List Nat} (bufLen : Nat)
    (hb : f.buf = some data) (h : f.offset < f.inode.data_size) :
    f.read bufLen = .ok
      ({ f with offset := f.offset + min bufLen (data.length - f.offset % f.erofs.block_size) },
        (data.drop (f.offset % f.erofs.block_size)).take
          (min bufLen (data.length - f.offset % f.erofs.block_size))) := by
  simp [File.read, hb, Nat.not_le.mpr h]

lemma File.read_locate_full {f : File} {block : List Nat} {bufLen : Nat}
    (hb : f.buf = none) (h : f.offset < f.inode.data_size)
    (hblock : f.erofs.get_inode_block f.inode f.offset = .ok block)
    (hlen : block.length ≤ bufLen) :
    f.read bufLen = .ok ({ f with offset := f.offset + block.length }, block) := by
  simp [File.read, hb, Nat.not_le.mpr h, hblock, hlen]

lemma File.read_locate_buffer {f : File} {block : List Nat} {bufLen : Nat}
    (hb : f.buf = none) (h : f.offset < f.inode.data_size)
    (hblock : f.erofs.get_inode_block f.inode f.offset = .ok block)
    (hlen : bufLen < block.length) :
    f.read bufLen = .ok
      ({ f with buf := some block, offset := f.offset + min bufLen (block.length - f.offset % f.erofs.block_size) },
        (block.drop (f.offset % f.erofs.block_size)).take
          (min bufLen (block.length - f.offset % f.erofs.block_size))) := by
  simp [File.read, hb, Nat.not_le.mpr h, hblock, Nat.not_le.mpr hlen]

lemma File.bufInv_new (i : Inode) (fs : EroFS) : (File.new i fs).bufInv := by
  simp [File.new, File.bufInv]

lemma File.readSafe_of_bufInv (f : File) (bufLen : Nat) (hinv : f.bufInv) :
    f.readSafe bufLen := by
  by_cases hds : f.inode.data_size ≤ f.offset
  · simp [File.readSafe, hds]
  · have hlt : f.offset < f.inode.data_size := Nat.not_le.mp hds
    cases hb : f.buf with
    | none =>
      have haligned : f.offset % f.erofs.block_size = 0 := by
        simp [File.bufInv, hb] at hinv
        rcases hinv with h0 | h0
        · exact h0
        · omega
      simp [File.readSafe, hds, hb, haligned]
      split <;> trivial
    | some data =>
      simp [File.bufInv, hb] at hinv
      obtain ⟨cur, hcur0, hcurlt, hdata, hcurle, htail⟩ := hinv
      have hlen : data.length =
          min f.erofs.block_size (f.inode.data_size - cur) := by
        subst hdata
        simp [Inode.data_size, List.length_take, List.length_drop]
      simp [File.readSafe, hds, hb]
      by_cases hfull : f.erofs.block_size ≤ f.inode.data_size - cur
      · have : f.offset % f.erofs.block_size < f.erofs.block_size :=
          Nat.mod_lt _ f.erofs.block_size_pos
        omega
      · have hsmall : f.inode.data_size - cur < f.erofs.block_size := by omega
        have hoffle : f.offset ≤ f.inode.data_size := htail hsmall
        have hofflt : f.offset < cur + f.erofs.block_size := by omega
        rw [mod_eq_sub_of_aligned hcur0 hcurle hofflt]
        omega

lemma File.bufInv_read {f : File} {bufLen : Nat} {f2 : File} {out : List Nat}
    (hinv : f.bufInv) (h : f.read bufLen = .ok (f2, out)) : f2.bufInv := by
  by_cases hds : f.inode.data_size ≤ f.offset
  · rw [File.read_eof bufLen hds] at h
    cases h
    exact hinv
  · have hlt : f.offset < f.inode.data_size := Nat.not_le.mp hds
    cases hb : f.buf with
    | some data =>
      rw [File.read_buffered bufLen hb hlt] at h
      cases h
      simp only [File.bufInv, hb]
      simp only [File.bufInv, hb] at hinv
      obtain ⟨cur, hcur0, hcurlt, hdata, hcurle, htail⟩ := hinv
      refine ⟨cur, hcur0, hcurlt, hdata, by omega, ?_⟩
      intro hsmall
      have hoffle : f.offset ≤ f.inode.data_size := htail hsmall
      have hofflt : f.offset < cur + f.erofs.block_size := by omega
      have hlen : data.length =
          min f.erofs.block_size (f.inode.data_size - cur) := by
        subst hdata
        simp [Inode.data_size, List.length_take, List.length_drop]
      rw [mod_eq_sub_of_aligned hcur0 hcurle hofflt]
      have : min bufLen (data.length - (f.offset - cur)) ≤
          data.length - (f.offset - cur) := Nat.min_le_right _ _
      omega
    | none =>
      have haligned : f.offset % f.erofs.block_size = 0 := by
        simp [File.bufInv, hb] at hinv
        rcases hinv with h0 | h0
        · exact h0
        · omega
      obtain ⟨block, hblock⟩ : ∃ b,
          f.erofs.get_inode_block f.inode f.offset = .ok b :=
        ⟨_, EroFS.get_inode_block_eq_ok hlt⟩
      have hform : block = (f.inode.content.drop f.offset).take
          (min f.erofs.block_size (f.inode.data_size - f.offset)) := by
        have heq := @EroFS.get_inode_block_eq_ok f.erofs f.inode f.offset hlt
        rw [hblock] at heq
        cases heq
        rw [haligned, Nat.sub_zero]
      have hblen : block.length =
          min f.erofs.block_size (f.inode.data_size - f.offset) := by
        have hl := EroFS.get_inode_block_length hblock
        rw [haligned, Nat.sub_zero] at hl
        exact hl
      by_cases hfits : block.length ≤ bufLen
      · rw [File.read_locate_full hb hlt hblock hfits] at h
        cases h
        simp only [File.bufInv, hb]
        by_cases hbig : f.erofs.block_size ≤ f.inode.data_size - f.offset
        · left
          rw [min_eq_left hbig] at hblen
          rw [hblen, Nat.add_mod, haligned, Nat.mod_self]
          simp
        · right
          rw [min_eq_right (by omega)] at hblen
          omega
      · rw [File.read_locate_buffer hb hlt hblock (Nat.not_le.mp hfits)] at h
        cases h
        simp only [File.bufInv]
        refine ⟨f.offset, haligned, hlt, hform, by omega, fun _ => ?_⟩
        have hn : min bufLen (block.length - f.offset % f.erofs.block_size) ≤
            f.inode.data_size - f.offset := by
          rw [haligned, Nat.sub_zero, hblen]
          exact le_trans (Nat.min_le_right _ _) (Nat.min_le_right _ _)
        omega

/-- C2: for every `File` whose logical cursor offset is at or past the
inode's `data_size`, `File::read` returns `Ok(0)` — end of stream, no
bytes, state unchanged — and never an error, for every caller buffer
(file.rs, lines 65-68). -/
theorem File.read_past_end (f : File) (bufLen : Nat)
    (h : f.inode.data_size ≤ f.offset) : f.read bufLen = .ok (f, []) :=
  File.read_eof bufLen h

/-- Witness for C2: a concrete file whose cursor (3) is at its
`data_size` (3) returns `Ok` with zero bytes. -/
theorem File.read_past_end_witness :
    ({ inode := ⟨[10, 20, 30]⟩, erofs := ⟨9⟩, offset := 3, buf := none } : File).read 7 =
      .ok ({ inode := ⟨[10, 20, 30]⟩, erofs := ⟨9⟩, offset := 3, buf := none }, []) :=
  File.read_past_end _ 7 (by decide)

/-- C8: calling `File::read` with a zero-length destination buffer while
the cursor is strictly before `data_size` returns `Ok(0)` — zero bytes —
without advancing the cursor, and without an error (file.rs, lines
64-97); at the public interface (returned count, cursor, size) this is
indistinguishable from the end-of-stream return. -/
theorem File.read_empty_buffer (f : File) (h : f.offset < f.inode.data_size) :
    ∃ f2, f.read 0 = .ok (f2, []) ∧ f2.offset = f.offset ∧ f2.size = f.size := by
  cases hb : f.buf with
  | some data =>
    refine ⟨{ f with offset := f.offset + min 0 (data.length - f.offset % f.erofs.block_size) }, ?_, by simp, rfl⟩
    rw [File.read_buffered 0 hb h]
    simp
  | none =>
    obtain ⟨block, hblock⟩ : ∃ b,
        f.erofs.get_inode_block f.inode f.offset = .ok b :=
      ⟨_, EroFS.get_inode_block_eq_ok h⟩
    have hpos : 0 < block.length := EroFS.get_inode_block_length_pos hblock h
    refine ⟨{ f with buf := some block, offset := f.offset + min 0 (block.length - f.offset % f.erofs.block_size) }, ?_, by simp, rfl⟩
    rw [File.read_locate_buffer hb h hblock hpos]
    simp

/-- Witness for C8: a concrete file with cursor 0 before `data_size` 2. -/
theorem File.read_empty_buffer_witness :
    ∃ f2, ({ inode := ⟨[4, 5]⟩, erofs := ⟨9⟩, offset := 0, buf := none } : File).read 0 =
        .ok (f2, []) ∧ f2.offset = 0 ∧ f2.size = 2 :=
  File.read_empty_buffer _ (by decide)

/-- C10: every `File::read` returning `Ok(n)` advances the logical cursor
by exactly `n` and changes nothing else observable: the inode (hence
`File::size` and the underlying content bytes the reader serves) and the
filesystem handle are untouched (file.rs, lines 58-97). -/
theorem File.read_frame (f : File) (bufLen : Nat) (f2 : File) (out : List Nat)
    (h : f.read bufLen = .ok (f2, out)) :
    f2.offset = f.offset + out.length ∧ f2.inode = f.inode ∧
      f2.erofs = f.erofs ∧ f2.size = f.size := by
  by_cases hds : f.inode.data_size ≤ f.offset
  · rw [File.read_eof bufLen hds] at h
    cases h
    simp [File.size]
  · have hlt : f.offset < f.inode.data_size := Nat.not_le.mp hds
    cases hb : f.buf with
    | some data =>
      rw [File.read_buffered bufLen hb hlt] at h
      cases h
      refine ⟨?_, rfl, rfl, rfl⟩
      simp only [List.length_take, List.length_drop]
      omega
    | none =>
      obtain ⟨block, hblock⟩ : ∃ b,
          f.erofs.get_inode_block f.inode f.offset = .ok b :=
        ⟨_, EroFS.get_inode_block_eq_ok hlt⟩
      by_cases hfits : block.length ≤ bufLen
      · rw [File.read_locate_full hb hlt hblock hfits] at h
        cases h
        exact ⟨rfl, rfl, rfl, rfl⟩
      · rw [File.read_locate_buffer hb hlt hblock (Nat.not_le.mp hfits)] at h
        cases h
        refine ⟨?_, rfl, rfl, rfl⟩
        simp only [List.length_take, List.length_drop]
        omega

/-- Witness for C10: a concrete 3-byte file read with a 2-byte buffer
returns 2 bytes and advances the cursor from 0 to 2. -/
theorem File.read_frame_witness :
    (File.mk (Inode.mk [1, 2, 3]) (EroFS.mk 9) 2 (some [1, 2, 3])).offset = 0 + [1, 2].length ∧
      (File.mk (Inode.mk [1, 2, 3]) (EroFS.mk 9) 2 (some [1, 2, 3])).inode = Inode.mk [1, 2, 3] ∧
      (File.mk (Inode.mk [1, 2, 3]) (EroFS.mk 9) 2 (some [1, 2, 3])).erofs = EroFS.mk 9 ∧
      (File.mk (Inode.mk [1, 2, 3]) (EroFS.mk 9) 2 (some [1, 2, 3])).size =
        (File.new (Inode.mk [1, 2, 3]) (EroFS.mk 9)).size :=
  File.read_frame (File.new (Inode.mk [1, 2, 3]) (EroFS.mk 9)) 2 _ [1, 2] (by rfl)

/-- C4: the Data Locator boundary contract (spec sections 4.4 and 8):
`get_inode_block` fails with `OutOfBounds` exactly when the logical offset
is at or past `data_size`; at `data_size - 1` it succeeds with a non-empty
extent; and every returned extent's length is at most
`data_size - logical_offset`. -/
theorem EroFS.get_inode_block_bounds (fs : EroFS) (i : Inode) :
    (∀ off, fs.get_inode_block i off = .error .outOfBounds ↔
      i.data_size ≤ off) ∧
    (∀ off block, fs.get_inode_block i off = .ok block →
      block.length ≤ i.data_size - off) ∧
    (0 < i.data_size → ∃ block,
      fs.get_inode_block i (i.data_size - 1) = .ok block ∧ block ≠ []) := by
  refine ⟨?_, ?_, ?_⟩
  · intro off
    by_cases h : i.data_size ≤ off <;> simp [EroFS.get_inode_block, h]
  · intro off block hb
    rw [EroFS.get_inode_block_length hb]
    exact Nat.min_le_right _ _
  · intro hpos
    have hlt : i.data_size - 1 < i.data_size := by omega
    refine ⟨_, EroFS.get_inode_block_eq_ok hlt, ?_⟩
    have hlp := EroFS.get_inode_block_length_pos
      (@EroFS.get_inode_block_eq_ok fs i (i.data_size - 1) hlt) hlt
    exact List.length_pos.mp hlp

/-- Witness for C4: on a concrete one-byte file, locating offset 1 fails
with `OutOfBounds`, locating offset `data_size - 1 = 0` succeeds with a
non-empty extent, and that extent's length is within bounds. -/
theorem EroFS.get_inode_block_bounds_witness :
    (EroFS.mk 9).get_inode_block ⟨[7]⟩ 1 = .error .outOfBounds ∧
      (∀ block, (EroFS.mk 9).get_inode_block ⟨[7]⟩ 0 = .ok block →
        block.length ≤ 1) ∧
      (∃ block, (EroFS.mk 9).get_inode_block ⟨[7]⟩ 0 = .ok block ∧
        block ≠ []) := by
  obtain ⟨h1, h2, h3⟩ := EroFS.get_inode_block_bounds ⟨9⟩ ⟨[7]⟩
  exact ⟨(h1 1).mpr (by decide), fun block hb => h2 0 block hb, h3 (by decide)⟩

/-- C3: on a read with no extent buffered, the reader resolves the current
offset through the Data Locator and, when the located extent is larger than
the caller's buffer, buffers exactly that extent (file.rs, lines 78-96);
and while an extent located at block-aligned `cur` is buffered, a read
whose cursor is still inside it is served from the buffered bytes at the
cursor's position within the extent — the result is computed from the
buffer alone, with no occurrence of the locator or the image content
(file.rs, lines 70-76). -/
theorem File.read_extent_buffering (f : File) (bufLen : Nat) :
    (f.buf = none → f.offset < f.inode.data_size →
      ∀ block, f.erofs.get_inode_block f.inode f.offset = .ok block →
        bufLen < block.length →
        f.read bufLen = .ok
          ({ f with buf := some block, offset := f.offset + min bufLen (block.length - f.offset % f.erofs.block_size) },
            (block.drop (f.offset % f.erofs.block_size)).take
              (min bufLen (block.length - f.offset % f.erofs.block_size)))) ∧
    (∀ data cur, f.buf = some data →
      cur % f.erofs.block_size = 0 → cur ≤ f.offset →
      f.offset < cur + data.length → data.length ≤ f.erofs.block_size →
      f.offset < f.inode.data_size →
      f.read bufLen = .ok
        ({ f with offset := f.offset + min bufLen (data.length - (f.offset - cur)) },
          (data.drop (f.offset - cur)).take
            (min bufLen (data.length - (f.offset - cur))))) := by
  constructor
  · intro hb hlt block hblock hlen
    exact File.read_locate_buffer hb hlt hblock hlen
  · intro data cur hb hcur0 hcurle hin hle hlt
    have hofflt : f.offset < cur + f.erofs.block_size := by omega
    have hmod := mod_eq_sub_of_aligned hcur0 hcurle hofflt
    rw [File.read_buffered bufLen hb hlt, hmod]

/-- Witness for C3: a 3-byte file behind a 512-byte block; a 2-byte read
from a fresh handle buffers the 3-byte extent and serves 2 bytes; the
following 1-byte read is served from the buffer. -/
theorem File.read_extent_buffering_witness :
    (File.new (Inode.mk [1, 2, 3]) (EroFS.mk 9)).read 2 =
        .ok (File.mk (Inode.mk [1, 2, 3]) (EroFS.mk 9) 2 (some [1, 2, 3]), [1, 2]) ∧
      (File.mk (Inode.mk [1, 2, 3]) (EroFS.mk 9) 2 (some [1, 2, 3])).read 1 =
        .ok (File.mk (Inode.mk [1, 2, 3]) (EroFS.mk 9) 3 (some [1, 2, 3]), [3]) := by
  obtain ⟨h1, -⟩ := File.read_extent_buffering (File.new (Inode.mk [1, 2, 3]) (EroFS.mk 9)) 2
  obtain ⟨-, h2⟩ := File.read_extent_buffering (File.mk (Inode.mk [1, 2, 3]) (EroFS.mk 9) 2 (some [1, 2, 3])) 1
  constructor
  · exact h1 rfl (by decide) [1, 2, 3] (by rfl) (by decide)
  · exact h2 [1, 2, 3] 0 rfl (by decide) (by decide) (by decide) (by decide) (by decide)

/-- C5: for both byte-source backends and every requested byte range,
`get` returns the borrowed subslice covering exactly the computed
`[start, stop)` range when that range lies within the image, returns
`None` when the range exceeds the image, and `len` returns the image's
total byte count (slice.rs, lines 47-67; mmap.rs, lines 40-59). -/
theorem Image.get_range_spec (s : SliceImage) (m : MmapImage) (r : RangeB) :
    (r.startIndex ≤ r.stopIndex s.len → r.stopIndex s.len ≤ s.len →
      s.get r = some ((s.data.drop r.startIndex).take
        (r.stopIndex s.len - r.startIndex))) ∧
    (s.len < r.stopIndex s.len → s.get r = none) ∧
    s.len = s.data.length ∧
    (r.startIndex ≤ r.stopIndex m.len → r.stopIndex m.len ≤ m.len →
      m.get r = some ((m.data.drop r.startIndex).take
        (r.stopIndex m.len - r.startIndex))) ∧
    (m.len < r.stopIndex m.len → m.get r = none) ∧
    m.len = m.data.length := by
  refine ⟨?_, ?_, rfl, ?_, ?_, rfl⟩
  · intro h1 h2
    simp only [SliceImage.get, SliceImage.len, sliceGet] at *
    rw [if_pos ⟨h1, h2⟩]
  · intro h1
    simp only [SliceImage.get, SliceImage.len, sliceGet] at *
    rw [if_neg]
    rintro ⟨-, hc⟩
    omega
  · intro h1 h2
    simp only [MmapImage.get, MmapImage.len, sliceGet] at *
    rw [if_pos ⟨h1, h2⟩]
  · intro h1
    simp only [MmapImage.get, MmapImage.len, sliceGet] at *
    rw [if_neg]
    rintro ⟨-, hc⟩
    omega

/-- Witness for C5: on a 3-byte slice image the in-range request `1..3`
returns exactly bytes 1 and 2; on a 2-byte mmap image the same request
exceeds the image and returns `None`; both lengths are reported. -/
theorem Image.get_range_spec_witness :
    SliceImage.get ⟨[1, 2, 3]⟩ ⟨RBound.included 1, RBound.excluded 3⟩ = some [2, 3] ∧
      MmapImage.get ⟨[4, 5]⟩ ⟨RBound.included 1, RBound.excluded 3⟩ = none ∧
      SliceImage.len ⟨[1, 2, 3]⟩ = 3 ∧ MmapImage.len ⟨[4, 5]⟩ = 2 := by
  obtain ⟨h1, -, -, -, h5, -⟩ :=
    Image.get_range_spec ⟨[1, 2, 3]⟩ ⟨[4, 5]⟩ ⟨RBound.included 1, RBound.excluded 3⟩
  exact ⟨h1 (by decide) (by decide), h5 (by decide), rfl, rfl⟩

/-- C9: `Image::get_cursor(offset)` (the trait's default method over the
slice backend's `get`) returns `Some` exactly when `offset <= image
length`; in particular at `offset = image length` it returns a cursor over
the empty slice rather than `None` (mod.rs, lines 87-93; slice.rs, lines
48-62). -/
theorem SliceImage.get_cursor_spec (img : SliceImage) (offset : Nat) :
    ((img.get_cursor offset).isSome ↔ offset ≤ img.len) ∧
    img.get_cursor img.len = some (Cursor.new []) := by
  constructor
  · by_cases h : offset ≤ img.data.length <;>
      simp [SliceImage.get_cursor, SliceImage.get, sliceGet, RangeB.startIndex,
        RangeB.stopIndex, SliceImage.len, h]
  · simp [SliceImage.get_cursor, SliceImage.get, sliceGet, RangeB.startIndex,
      RangeB.stopIndex, SliceImage.len, Cursor.new]

/-- Witness for C9: on a concrete 2-byte image, `get_cursor 1` is `Some`,
`get_cursor 3` is `None`, and `get_cursor 2` (the image length) is a
cursor over the empty slice. -/
theorem SliceImage.get_cursor_spec_witness :
    (SliceImage.get_cursor ⟨[6, 7]⟩ 1).isSome ∧
      ¬ (SliceImage.get_cursor ⟨[6, 7]⟩ 3).isSome ∧
      SliceImage.get_cursor ⟨[6, 7]⟩ 2 = some (Cursor.new []) := by
  refine ⟨(SliceImage.get_cursor_spec ⟨[6, 7]⟩ 1).1.mpr (by decide), ?_, ?_⟩
  · intro hs
    exact absurd ((SliceImage.get_cursor_spec ⟨[6, 7]⟩ 3).1.mp hs) (by decide)
  · exact (SliceImage.get_cursor_spec ⟨[6, 7]⟩ 2).2

/-- C6: no operation panics: `File.new` establishes the reachability
invariant `bufInv`; `bufInv` implies `readSafe` — the in-bounds conditions
of every Rust slice indexing inside `File::read` — and is preserved by
every successful read, so along any sequence of reads every indexing stays
in range; the backends' `get` (and everything `File::read` does) is a
total function whose failures are returned values (`None` / `Err`), never
aborts. -/
theorem File.read_no_panic (i : Inode) (fs : EroFS) (f f2 : File)
    (bufLen : Nat) (out : List Nat) :
    (File.new i fs).bufInv ∧
    (f.bufInv → f.readSafe bufLen) ∧
    (f.bufInv → f.read bufLen = .ok (f2, out) → f2.bufInv) :=
  ⟨File.bufInv_new i fs, File.readSafe_of_bufInv f bufLen,
    fun hinv h => File.bufInv_read hinv h⟩

/-- Witness for C6: the invariant holds for a fresh 2-byte file, yields
its in-bounds property for a 1-byte read, and is re-established for the
state that read produces (which buffers the extent). -/
theorem File.read_no_panic_witness :
    (File.new (Inode.mk [8, 9]) (EroFS.mk 9)).bufInv ∧
      (File.new (Inode.mk [8, 9]) (EroFS.mk 9)).readSafe 1 ∧
      (File.mk (Inode.mk [8, 9]) (EroFS.mk 9) 1 (some [8, 9])).bufInv := by
  obtain ⟨h1, h2, h3⟩ := File.read_no_panic (Inode.mk [8, 9]) (EroFS.mk 9)
    (File.new (Inode.mk [8, 9]) (EroFS.mk 9))
    (File.mk (Inode.mk [8, 9]) (EroFS.mk 9) 1 (some [8, 9])) 1 [8]
  exact ⟨h1, h2 h1, h3 h1 (by rfl)⟩

lemma sliceGet_congr {l l2 : List Nat} {base k : Nat}
    (hlen : l.length = l2.length)
    (hagree : (l.drop base).take 64 = (l2.drop base).take 64)
    (hk : k ≤ 64) :
    sliceGet l base (base + k) = sliceGet l2 base (base + k) := by
  have hv : (l.drop base).take k = (l2.drop base).take k := by
    calc (l.drop base).take k = ((l.drop base).take 64).take k := by
          rw [List.take_take, min_eq_left hk]
      _ = ((l2.drop base).take 64).take k := by rw [hagree]
      _ = (l2.drop base).take k := by rw [List.take_take, min_eq_left hk]
  unfold sliceGet
  rw [hlen]
  simp only [Nat.add_sub_cancel_left]
  rw [hv]

/-- C7: the inode decoder is deterministic with no hidden mutable state:
decoding the same valid node id twice over the same (immutable) image and
superblock yields identical logical inodes; moreover the result depends
only on the image's length and the bytes of the inode's metadata slot, so
no state outside the decoder's inputs can influence it. -/
theorem decode_inode_deterministic (sb : Superblock) (img img2 : List Nat)
    (nid : Nat) :
    decode_inode sb img nid = decode_inode sb img nid ∧
    (img.length = img2.length →
      (img.drop (sb.meta_block_addr * 2 ^ sb.block_size_shift + nid * 32)).take 64 =
        (img2.drop (sb.meta_block_addr * 2 ^ sb.block_size_shift + nid * 32)).take 64 →
      decode_inode sb img nid = decode_inode sb img2 nid) := by
  refine ⟨rfl, fun hlen hagree => ?_⟩
  by_cases hn : sb.inode_count ≤ nid
  · simp [decode_inode, hn]
  · have h32 := sliceGet_congr (k := 32) hlen hagree (by norm_num)
    have h64 := sliceGet_congr (k := 64) hlen hagree (by norm_num)
    simp only [decode_inode, hn, if_false]
    rw [h32]
    cases hres : sliceGet img2 (sb.meta_block_addr * 2 ^ sb.block_size_shift + nid * 32)
        (sb.meta_block_addr * 2 ^ sb.block_size_shift + nid * 32 + 32) with
    | none => rfl
    | some header =>
      by_cases hext : (header.headD 0 % 2 == 1) = true
      · simp only [if_pos hext]
        rw [h64]
      · simp only [if_neg hext]
        rw [h32]

/-- Witness for C7: two concrete 70-byte images differing only in byte 0
(outside node id 1's metadata slot) decode node id 1 identically. -/
theorem decode_inode_deterministic_witness :
    decode_inode (Superblock.mk 1 0 4 0) (1 :: List.replicate 69 0) 1 =
      decode_inode (Superblock.mk 1 0 4 0) (2 :: List.replicate 69 0) 1 :=
  (decode_inode_deterministic (Superblock.mk 1 0 4 0)
    (1 :: List.replicate 69 0) (2 :: List.replicate 69 0) 1).2
    (by decide) (by decide)

set_option maxRecDepth 4000

/-- C1 fails on the code: for the 513-byte file `0,...,0,1` (block size
512, two extents: bytes 0-511 and byte 512), reading with buffer sizes
`[513, 513]` until end of stream yields the true content, but reading with
buffer sizes `[511, 1, 1, 1]` yields 513 bytes whose byte 512 is wrong:
`File::read` sets `self.buf` (file.rs, line 93) and never clears it, so
once the cursor crosses the buffered extent, `offset % block_size` wraps
to 0 and the stale extent's bytes are served again in place of the next
extent's.  Both chunkings return exactly `data_size = 513` bytes in
total, but the concatenated bytes differ, refuting byte-identity across
chunkings. -/
theorem File.read_chunking_divergence :
    (File.new (Inode.mk (List.replicate 512 0 ++ [1])) (EroFS.mk 9)).readChunks [513, 513] =
        List.replicate 512 0 ++ [1] ∧
      ((File.new (Inode.mk (List.replicate 512 0 ++ [1])) (EroFS.mk 9)).readChunks [511, 1, 1, 1]).length = 513 ∧
      (File.new (Inode.mk (List.replicate 512 0 ++ [1])) (EroFS.mk 9)).readChunks [511, 1, 1, 1] ≠
        (File.new (Inode.mk (List.replicate 512 0 ++ [1])) (EroFS.mk 9)).readChunks [513, 513] :=
  ⟨by decide, by decide, by decide⟩
